import Mathlib

/-!
# Verification of the csharp_iterator FFI shim

Shallow embedding of `src/csharp_iterator/src/lib.rs`.

The Rust code exposes a native iterator to a foreign (C#) caller through
three pieces:

* `iter_impl_ffi` — the trampoline: given a pointer `p` to a boxed
  iterator and a pointer `data` to a destination slot, it calls
  `(*p).next()`.  On `Some(x)` it writes `*data = x` and returns `true`;
  on `None` it reclaims the box with `Box::from_raw(p)` and returns
  `false`.
* `CSharpIteratorOut::form` — wraps an iterator: type-erases it, moves it
  onto the heap with `Box::into_raw(Box::new(Box::new(iter) as _))`, and
  returns a record whose `internal_iter` field is the trampoline and
  whose `pointer` field is the fresh heap address.
* `get_iterator` — an example: writes the handle for
  `(0..40).map(|x| (0..x).collect())` into a caller-supplied record.

Embedding choices:

* A Rust iterator is embedded as a step function `next : σ → Option (T × σ)`
  over an explicit state type `σ` (Rust `Iterator::next` mutates the
  receiver; here the state is passed explicitly).
* The memory a single trampoline call touches is an explicit state record
  `FfiState`: the handle record held by the caller, the iterator state
  behind the handle pointer, the destination slot, whether the heap box is
  still allocated (`live`), and how many deallocations have happened
  (`deallocs`, incremented by the `Box::from_raw` in the `None` branch).
* The ambient heap used by `form` is a list of cells; a fresh address is
  the length of the heap, as allocation never reuses addresses here.
* The C function-pointer value stored in `internal_iter` is embedded as
  the inductive `CallTarget`; the source defines exactly one function
  with the required signature per element type, namely `iter_impl_ffi`.
-/

/-- The possible values of the `internal_iter` function-pointer field.
The source defines exactly one `extern` function of the required
signature (per element type), `iter_impl_ffi`, so the type has one
constructor. -/
inductive CallTarget : Type where
  | iterImplFfi : CallTarget
deriving DecidableEq, Repr

/-- The record passed to the foreign caller (`CSharpIteratorOut<T>` in the
source): the trampoline function pointer and the thin pointer to the
boxed, type-erased iterator.  Addresses are embedded as `Nat`. -/
structure CSharpIteratorOut where
  internal_iter : CallTarget
  pointer : Nat
deriving DecidableEq, Repr

/-- The state visible to one trampoline call on one handle: the handle
record the caller holds, the iterator state stored behind the handle's
pointer, the caller-owned destination slot, whether the heap box is still
allocated, and the number of deallocations performed so far. -/
structure FfiState (σ T : Type) where
  record : CSharpIteratorOut
  iterState : σ
  slot : T
  live : Bool
  deallocs : Nat
deriving Repr

/-- The trampoline `iter_impl_ffi` from the source.  It calls
`(*p).next()`: on `Some(x)` it writes `*data = x` and returns `true`;
on `None` it drops the box (`Box::from_raw(p)`) — embedded as setting
`live := false` and incrementing `deallocs` — and returns `false`. -/
def iter_impl_ffi {σ T : Type} (next : σ → Option (T × σ)) (s : FfiState σ T) :
    Bool × FfiState σ T :=
  match next s.iterState with
  | some (x, s') => (true, { s with iterState := s', slot := x })
  | none => (false, { s with live := false, deallocs := s.deallocs + 1 })

/-- `CSharpIteratorOut::form` from the source: heap-allocates the (type-
erased) iterator state and returns the new heap together with the handle
record, whose `internal_iter` is the stock trampoline and whose `pointer`
is the fresh address. -/
def CSharpIteratorOut.form {σ : Type} (heap : List (Option σ)) (iter : σ) :
    List (Option σ) × CSharpIteratorOut :=
  (heap ++ [some iter],
   { internal_iter := CallTarget.iterImplFfi, pointer := heap.length })

/-- The step function of the Rust range `0..hi`: yields the counter while
it is below `hi`. -/
def rangeNext (hi : Nat) (s : Nat) : Option (Nat × Nat) :=
  if s < hi then some (s, s + 1) else none

/-- The step function of Rust `Iterator::map`: applies `f` to each yielded
element, leaving the underlying state transition unchanged. -/
def mapNext {σ α β : Type} (f : α → β) (next : σ → Option (α × σ)) (s : σ) :
    Option (β × σ) :=
  match next s with
  | some (x, s') => some (f x, s')
  | none => none

/-- The step function of the iterator built inside `get_iterator`:
`(0..40).map(|x| (0..x).collect::<Vec<usize>>())`.  The collected vector
`(0..x).collect()` is the list `List.range x`. -/
def get_iterator_next : Nat → Option (List Nat × Nat) :=
  mapNext (fun x => List.range x) (rangeNext 40)

/-- `get_iterator` from the source: builds the example iterator's handle
with `form` and overwrites the caller-supplied record `cs` with it
(`*cs = iterator`).  Returns the new heap and the value now stored in the
record. -/
def get_iterator (heap : List (Option Nat)) (cs : CSharpIteratorOut) :
    List (Option Nat) × CSharpIteratorOut :=
  CSharpIteratorOut.form heap 0

/-- Run the trampoline up to `fuel` times the way a contract-respecting
caller does: keep calling while `true` is returned, stop as soon as a call
returns `false`.  Produces the final state and the log of
(returned boolean, slot content after the call) pairs. -/
def runFfi {σ T : Type} (next : σ → Option (T × σ)) (s : FfiState σ T) :
    Nat → FfiState σ T × List (Bool × T)
  | 0 => (s, [])
  | Nat.succ n =>
    let r := iter_impl_ffi next s
    if r.1 then
      let rest := runFfi next r.2 n
      (rest.1, (true, r.2.slot) :: rest.2)
    else
      (r.2, [(false, r.2.slot)])

/-- The values delivered on the `true`-returning calls of a log, in
order. -/
def trueOutputs {T : Type} (log : List (Bool × T)) : List T :=
  log.filterMap (fun p => if p.1 then some p.2 else none)

/-- The booleans returned by the calls of a log, in order. -/
def boolLog {T : Type} (log : List (Bool × T)) : List Bool :=
  log.map Prod.fst

/-- Direct iteration of a sequence, written from the spec's phrase
"directly iterating S to completion without the boundary wrapper": apply
`next` repeatedly (up to `fuel` times), collecting the yielded elements,
stopping at exhaustion. -/
def directIterate {σ T : Type} (next : σ → Option (T × σ)) (s : σ) :
    Nat → List T
  | 0 => []
  | Nat.succ n =>
    match next s with
    | some (x, s') => x :: directIterate next s' n
    | none => []

/-- The iterator state reached after `k` successful `next` steps, or
`none` if the sequence is exhausted strictly before `k` steps. -/
def advance {σ T : Type} (next : σ → Option (T × σ)) (s : σ) :
    Nat → Option σ
  | 0 => some s
  | Nat.succ n =>
    match next s with
    | some (_, s') => advance next s' n
    | none => none

/-- The sequence starting at `s` has exactly `N` elements: `next`
succeeds `N` times and the state then reached is exhausted. -/
def SeqLength {σ T : Type} (next : σ → Option (T × σ)) (s : σ) (N : Nat) :
    Prop :=
  ∃ t, advance next s N = some t ∧ next t = none

/-- The sequence starting at `s` never exhausts: every number of `next`
steps succeeds. -/
def SeqInfinite {σ T : Type} (next : σ → Option (T × σ)) (s : σ) : Prop :=
  ∀ k, (advance next s k).isSome

/-! ## Basic unfolding lemmas -/

/-- On a yielded value the trampoline writes the value into the slot,
stores the advanced iterator state and returns `true`. -/
theorem iter_impl_ffi_some {σ T : Type} (next : σ → Option (T × σ))
    (s : FfiState σ T) (x : T) (t : σ) (h : next s.iterState = some (x, t)) :
    iter_impl_ffi next s = (true, { s with iterState := t, slot := x }) := by
  simp [iter_impl_ffi, h]

/-- On exhaustion the trampoline deallocates the box and returns
`false`. -/
theorem iter_impl_ffi_none {σ T : Type} (next : σ → Option (T × σ))
    (s : FfiState σ T) (h : next s.iterState = none) :
    iter_impl_ffi next s
      = (false, { s with live := false, deallocs := s.deallocs + 1 }) := by
  simp [iter_impl_ffi, h]

/-- The trampoline never touches the handle record held by the caller. -/
theorem iter_impl_ffi_record {σ T : Type} (next : σ → Option (T × σ))
    (s : FfiState σ T) : (iter_impl_ffi next s).2.record = s.record := by
  cases h : next s.iterState with
  | none => simp [iter_impl_ffi, h]
  | some p => simp [iter_impl_ffi, h]

/-- Unfolding a run on a value-yielding state. -/
theorem runFfi_succ_true {σ T : Type} (next : σ → Option (T × σ))
    (s s' : FfiState σ T) (h : iter_impl_ffi next s = (true, s')) (n : Nat) :
    runFfi next s (n + 1)
      = ((runFfi next s' n).1, (true, s'.slot) :: (runFfi next s' n).2) := by
  simp [runFfi, h]

/-- Unfolding a run on an exhausted state: the caller stops. -/
theorem runFfi_succ_false {σ T : Type} (next : σ → Option (T × σ))
    (s s' : FfiState σ T) (h : iter_impl_ffi next s = (false, s')) (n : Nat) :
    runFfi next s (n + 1) = (s', [(false, s'.slot)]) := by
  simp [runFfi, h]

/-- A run never changes the handle record. -/
theorem runFfi_record {σ T : Type} (next : σ → Option (T × σ)) :
    ∀ (n : Nat) (s : FfiState σ T), (runFfi next s n).1.record = s.record := by
  intro n
  induction n with
  | zero => intro s; rfl
  | succ n ih =>
    intro s
    cases hx : next s.iterState with
    | some p =>
      rw [runFfi_succ_true next s _ (iter_impl_ffi_some next s p.1 p.2 hx) n]
      rw [ih]
    | none =>
      rw [runFfi_succ_false next s _ (iter_impl_ffi_none next s hx) n]

/-- A concrete handle record used by the witnesses below. -/
def sampleRecord : CSharpIteratorOut :=
  { internal_iter := CallTarget.iterImplFfi, pointer := 0 }

/-- A concrete trampoline-call state used by the witnesses below. -/
def sampleState : FfiState Nat Nat :=
  { record := sampleRecord, iterState := 0, slot := 7, live := true,
    deallocs := 0 }

/-! ## Claims about a single trampoline call -/

/-- C1: for every live, not-yet-exhausted Sequence and destination slot, a
single trampoline call advances the Sequence by exactly one step: if the
Sequence yields a value, that value is written into the destination slot
and the call returns `true`; if the Sequence is exhausted, the call
returns `false` (and the box is deallocated). -/
theorem trampoline_advances_one_step {σ T : Type} (next : σ → Option (T × σ))
    (s : FfiState σ T) (h : s.live = true) :
    (∀ x t, next s.iterState = some (x, t) →
      iter_impl_ffi next s = (true, { s with iterState := t, slot := x })) ∧
    (next s.iterState = none →
      iter_impl_ffi next s
        = (false, { s with live := false, deallocs := s.deallocs + 1 })) :=
  ⟨fun x t hx => iter_impl_ffi_some next s x t hx,
   fun hn => iter_impl_ffi_none next s hn⟩

/-- Witness for C1 at a concrete state and sequence. -/
theorem trampoline_advances_one_step_witness :
    sampleState.live = true ∧
    ((∀ x t, rangeNext 3 sampleState.iterState = some (x, t) →
      iter_impl_ffi (rangeNext 3) sampleState
        = (true, { sampleState with iterState := t, slot := x })) ∧
    (rangeNext 3 sampleState.iterState = none →
      iter_impl_ffi (rangeNext 3) sampleState
        = (false, { sampleState with live := false, deallocs := sampleState.deallocs + 1 }))) :=
  ⟨rfl, trampoline_advances_one_step (rangeNext 3) sampleState rfl⟩

/-- C6: on the trampoline call that returns `false` (the exhaustion
call), the destination slot is not written: its content is exactly what
it was before the call. -/
theorem exhaustion_call_slot_unchanged {σ T : Type}
    (next : σ → Option (T × σ)) (s : FfiState σ T)
    (h : next s.iterState = none) :
    (iter_impl_ffi next s).1 = false ∧
    (iter_impl_ffi next s).2.slot = s.slot := by
  rw [iter_impl_ffi_none next s h]
  exact ⟨rfl, rfl⟩

/-- Witness for C6: an exhausted sequence leaves the concrete slot value 7
in place. -/
theorem exhaustion_call_slot_unchanged_witness :
    rangeNext 0 sampleState.iterState = none ∧
    ((iter_impl_ffi (rangeNext 0) sampleState).1 = false ∧
     (iter_impl_ffi (rangeNext 0) sampleState).2.slot = sampleState.slot) :=
  ⟨by decide, exhaustion_call_slot_unchanged (rangeNext 0) sampleState (by decide)⟩

/-- C9: the trampoline's outcome does not depend on the destination
slot's prior content: two calls on identically-stated Sequences return
the same boolean, and on a value-yielding call the slot afterwards holds
exactly the yielded element in both runs. -/
theorem trampoline_ignores_prior_slot {σ T : Type}
    (next : σ → Option (T × σ)) (s₁ s₂ : FfiState σ T)
    (h : s₁.iterState = s₂.iterState) :
    (iter_impl_ffi next s₁).1 = (iter_impl_ffi next s₂).1 ∧
    ∀ x t, next s₁.iterState = some (x, t) →
      (iter_impl_ffi next s₁).2.slot = x ∧
      (iter_impl_ffi next s₂).2.slot = x := by
  cases hx : next s₁.iterState with
  | none =>
    have hx₂ : next s₂.iterState = none := by rw [← h, hx]
    rw [iter_impl_ffi_none next s₁ hx, iter_impl_ffi_none next s₂ hx₂]
    exact ⟨rfl, fun x t hxt => by simp [hx] at hxt⟩
  | some p =>
    have hx₂ : next s₂.iterState = some p := by rw [← h, hx]
    rw [iter_impl_ffi_some next s₁ p.1 p.2 hx,
        iter_impl_ffi_some next s₂ p.1 p.2 hx₂]
    refine ⟨rfl, fun x t hxt => ?_⟩
    have hp : p = (x, t) := Option.some.inj hxt
    subst hp
    exact ⟨rfl, rfl⟩

/-- Witness for C9: states with slots 7 and 99 over the same sequence. -/
theorem trampoline_ignores_prior_slot_witness :
    sampleState.iterState = ({ sampleState with slot := 99 }).iterState ∧
    ((iter_impl_ffi (rangeNext 3) sampleState).1
       = (iter_impl_ffi (rangeNext 3) { sampleState with slot := 99 }).1 ∧
    ∀ x t, rangeNext 3 sampleState.iterState = some (x, t) →
      (iter_impl_ffi (rangeNext 3) sampleState).2.slot = x ∧
      (iter_impl_ffi (rangeNext 3)
        { sampleState with slot := 99 }).2.slot = x) :=
  ⟨rfl, trampoline_ignores_prior_slot (rangeNext 3) sampleState
      { sampleState with slot := 99 } rfl⟩

/-! ## Claims about handle construction -/

/-- C8: `form` always succeeds (it is a total function) and returns a
record whose `internal_iter` field is the single shared trampoline and
whose `pointer` field is the address of the freshly heap-allocated
Sequence: the new heap holds the Sequence at that address, and the
address was not allocated in the old heap. -/
theorem form_builds_fresh_handle {σ : Type} (heap : List (Option σ))
    (s : σ) :
    (CSharpIteratorOut.form heap s).2.internal_iter
      = CallTarget.iterImplFfi ∧
    (CSharpIteratorOut.form heap s).2.pointer = heap.length ∧
    ((CSharpIteratorOut.form heap s).1)[heap.length]? = some (some s) ∧
    heap[heap.length]? = none := by
  refine ⟨rfl, rfl, ?_, ?_⟩
  · simp [CSharpIteratorOut.form]
  · simp

/-- C10: every handle record produced by `form` or written by
`get_iterator` has `internal_iter` equal to the one shared trampoline;
`get_iterator` fully determines both fields of the record it is given
(its output does not depend on the record's prior content); and no
operation of the library — neither a single trampoline call nor any run
of calls — ever changes the handle record afterwards. -/
theorem handle_call_target_invariant {σ T : Type}
    (next : σ → Option (T × σ)) (heap : List (Option σ)) (s : σ)
    (heap2 : List (Option Nat)) (cs cs' : CSharpIteratorOut)
    (st : FfiState σ T) :
    (CSharpIteratorOut.form heap s).2.internal_iter
      = CallTarget.iterImplFfi ∧
    (get_iterator heap2 cs).2.internal_iter = CallTarget.iterImplFfi ∧
    (get_iterator heap2 cs).2 = (get_iterator heap2 cs').2 ∧
    (iter_impl_ffi next st).2.record = st.record ∧
    ∀ n, (runFfi next st n).1.record = st.record :=
  ⟨rfl, rfl, rfl, iter_impl_ffi_record next st,
   fun n => runFfi_record next n st⟩

/-! ## Lemmas about advancing a sequence -/

/-- Unfolding `advance` over a yielding state. -/
theorem advance_succ_some {σ T : Type} (next : σ → Option (T × σ)) {s : σ}
    {x : T} {t : σ} (h : next s = some (x, t)) (n : Nat) :
    advance next s (n + 1) = advance next t n := by
  simp [advance, h]

/-- Unfolding `advance` over an exhausted state. -/
theorem advance_succ_none {σ T : Type} (next : σ → Option (T × σ)) {s : σ}
    (h : next s = none) (n : Nat) :
    advance next s (n + 1) = none := by
  simp [advance, h]

/-- A length-0 sequence is exhausted at once. -/
theorem seqLength_zero {σ T : Type} (next : σ → Option (T × σ)) {s : σ}
    (h : SeqLength next s 0) : next s = none := by
  obtain ⟨t, ht, hn⟩ := h
  cases Option.some.inj ht
  exact hn

/-- A length-`N+1` sequence yields once and leaves a length-`N`
sequence. -/
theorem seqLength_succ {σ T : Type} (next : σ → Option (T × σ)) {s : σ}
    {N : Nat} (h : SeqLength next s (N + 1)) :
    ∃ x t, next s = some (x, t) ∧ SeqLength next t N := by
  obtain ⟨u, hadv, hnone⟩ := h
  cases hx : next s with
  | none =>
    rw [advance_succ_none next hx] at hadv
    exact absurd hadv (by simp)
  | some p =>
    obtain ⟨x, t⟩ := p
    rw [advance_succ_some next hx] at hadv
    exact ⟨x, t, rfl, u, hadv, hnone⟩

/-- Reaching `N` steps means every earlier number of steps is reached. -/
theorem advance_isSome_mono {σ T : Type} (next : σ → Option (T × σ)) :
    ∀ (k N : Nat) (s : σ), k ≤ N → (advance next s N).isSome →
      (advance next s k).isSome := by
  intro k
  induction k with
  | zero => intro N s _ _; simp [advance]
  | succ k ih =>
    intro N s hk hN
    cases N with
    | zero => exact absurd hk (by omega)
    | succ N =>
      cases hx : next s with
      | none =>
        rw [advance_succ_none next hx] at hN
        simp at hN
      | some p =>
        obtain ⟨x, t⟩ := p
        rw [advance_succ_some next hx] at hN ⊢
        exact ih N t (by omega) hN

/-- Unfolding `directIterate` over a yielding state. -/
theorem directIterate_succ_some {σ T : Type} (next : σ → Option (T × σ))
    {s : σ} {x : T} {t : σ} (h : next s = some (x, t)) (n : Nat) :
    directIterate next s (n + 1) = x :: directIterate next t n := by
  simp [directIterate, h]

/-- Unfolding `directIterate` over an exhausted state. -/
theorem directIterate_succ_none {σ T : Type} (next : σ → Option (T × σ))
    {s : σ} (h : next s = none) (n : Nat) :
    directIterate next s (n + 1) = [] := by
  simp [directIterate, h]

/-- With enough fuel, direct iteration of a length-`N` sequence is stable:
one extra unit of fuel adds nothing. -/
theorem directIterate_succ_of_length {σ T : Type}
    (next : σ → Option (T × σ)) :
    ∀ (N : Nat) (s : σ), SeqLength next s N →
      directIterate next s (N + 1) = directIterate next s N := by
  intro N
  induction N with
  | zero =>
    intro s h
    rw [directIterate_succ_none next (seqLength_zero next h)]
    rfl
  | succ N ih =>
    intro s h
    obtain ⟨x, t, hx, ht⟩ := seqLength_succ next h
    rw [directIterate_succ_some next hx (N + 1),
        directIterate_succ_some next hx N, ih t ht]

/-! ## Lemmas about contract-respecting runs -/

/-- The values delivered on `true` calls are exactly direct iteration with
the same fuel. -/
theorem trueOutputs_runFfi {σ T : Type} (next : σ → Option (T × σ)) :
    ∀ (n : Nat) (s : FfiState σ T),
      trueOutputs (runFfi next s n).2 = directIterate next s.iterState n := by
  intro n
  induction n with
  | zero => intro s; rfl
  | succ n ih =>
    intro s
    cases hx : next s.iterState with
    | none =>
      rw [runFfi_succ_false next s _ (iter_impl_ffi_none next s hx) n,
          directIterate_succ_none next hx n]
      rfl
    | some p =>
      obtain ⟨x, t⟩ := p
      rw [runFfi_succ_true next s _ (iter_impl_ffi_some next s x t hx) n,
          directIterate_succ_some next hx n]
      simpa [trueOutputs] using ih { s with iterState := t, slot := x }

/-- Over a length-`N` sequence, a run with fuel `N+1` returns `true`
exactly `N` times and then `false` once. -/
theorem boolLog_runFfi_of_length {σ T : Type} (next : σ → Option (T × σ)) :
    ∀ (N : Nat) (s : FfiState σ T), SeqLength next s.iterState N →
      boolLog (runFfi next s (N + 1)).2
        = List.replicate N true ++ [false] := by
  intro N
  induction N with
  | zero =>
    intro s h
    rw [runFfi_succ_false next s _
      (iter_impl_ffi_none next s (seqLength_zero next h)) 0]
    rfl
  | succ N ih =>
    intro s h
    obtain ⟨x, t, hx, ht⟩ := seqLength_succ next h
    rw [runFfi_succ_true next s _ (iter_impl_ffi_some next s x t hx) (N + 1)]
    simpa [boolLog, List.replicate_succ]
      using ih { s with iterState := t, slot := x } ht

/-- Calls that stop strictly before exhaustion deallocate nothing and
leave the box live. -/
theorem runFfi_no_dealloc {σ T : Type} (next : σ → Option (T × σ)) :
    ∀ (k : Nat) (s : FfiState σ T), (advance next s.iterState k).isSome →
      (runFfi next s k).1.deallocs = s.deallocs ∧
      (runFfi next s k).1.live = s.live := by
  intro k
  induction k with
  | zero => intro s _; exact ⟨rfl, rfl⟩
  | succ k ih =>
    intro s hk
    cases hx : next s.iterState with
    | none =>
      rw [advance_succ_none next hx] at hk
      simp at hk
    | some p =>
      obtain ⟨x, t⟩ := p
      rw [advance_succ_some next hx] at hk
      rw [runFfi_succ_true next s _ (iter_impl_ffi_some next s x t hx) k]
      exact ih { s with iterState := t, slot := x } hk

/-- Any run long enough to see exhaustion of a length-`N` sequence
performs exactly one deallocation (on the `false` call at which it stops)
and leaves the box dead. -/
theorem runFfi_dealloc_once {σ T : Type} (next : σ → Option (T × σ)) :
    ∀ (N : Nat) (s : FfiState σ T), SeqLength next s.iterState N →
      ∀ n, N < n → (runFfi next s n).1.deallocs = s.deallocs + 1 ∧
        (runFfi next s n).1.live = false := by
  intro N
  induction N with
  | zero =>
    intro s h n hn
    obtain ⟨m, rfl⟩ : ∃ m, n = m + 1 := ⟨n - 1, by omega⟩
    rw [runFfi_succ_false next s _
      (iter_impl_ffi_none next s (seqLength_zero next h)) m]
    exact ⟨rfl, rfl⟩
  | succ N ih =>
    intro s h n hn
    obtain ⟨x, t, hx, ht⟩ := seqLength_succ next h
    obtain ⟨m, rfl⟩ : ∃ m, n = m + 1 := ⟨n - 1, by omega⟩
    rw [runFfi_succ_true next s _ (iter_impl_ffi_some next s x t hx) m]
    exact ih { s with iterState := t, slot := x } ht m (by omega)

/-! ## Lemmas about infinite sequences -/

/-- An infinite sequence is never exhausted at its current state. -/
theorem seqInfinite_not_none {σ T : Type} (next : σ → Option (T × σ))
    {s : σ} (h : SeqInfinite next s) : next s ≠ none := by
  intro hn
  have h1 := h 1
  rw [advance_succ_none next hn] at h1
  simp at h1

/-- Stepping an infinite sequence leaves an infinite sequence. -/
theorem seqInfinite_step {σ T : Type} (next : σ → Option (T × σ)) {s : σ}
    {x : T} {t : σ} (h : SeqInfinite next s) (hx : next s = some (x, t)) :
    SeqInfinite next t := by
  intro k
  have hk := h (k + 1)
  rw [advance_succ_some next hx] at hk
  exact hk

/-- A run over an infinite sequence returns `true` on every call. -/
theorem boolLog_runFfi_infinite {σ T : Type} (next : σ → Option (T × σ)) :
    ∀ (n : Nat) (s : FfiState σ T), SeqInfinite next s.iterState →
      boolLog (runFfi next s n).2 = List.replicate n true := by
  intro n
  induction n with
  | zero => intro s _; rfl
  | succ n ih =>
    intro s h
    cases hx : next s.iterState with
    | none => exact absurd hx (seqInfinite_not_none next h)
    | some p =>
      obtain ⟨x, t⟩ := p
      rw [runFfi_succ_true next s _ (iter_impl_ffi_some next s x t hx) n]
      simpa [boolLog, List.replicate_succ]
        using ih { s with iterState := t, slot := x }
          (seqInfinite_step next h hx)

/-- The step function of the endless counter iterator used by the
infinite-sequence witness. -/
def natNext : Nat → Option (Nat × Nat) := fun s => some (s, s + 1)

/-- The endless counter never exhausts. -/
theorem natNext_infinite : ∀ s : Nat, SeqInfinite natNext s := by
  intro s k
  induction k generalizing s with
  | zero => simp [advance]
  | succ k ih =>
    rw [advance_succ_some natNext rfl k]
    exact ih (s + 1)

/-! ## Claims about runs of trampoline calls -/

/-- C2: calling the trampoline repeatedly until it returns `false` and
collecting, in order, the values written to the destination slot on the
`true`-returning calls yields exactly the same sequence of values as
iterating the wrapped Sequence directly to completion without the
wrapper. -/
theorem roundtrip_reproduces_sequence {σ T : Type}
    (next : σ → Option (T × σ)) (s : FfiState σ T) (N : Nat)
    (h : SeqLength next s.iterState N) :
    (boolLog (runFfi next s (N + 1)).2).getLast? = some false ∧
    trueOutputs (runFfi next s (N + 1)).2
      = directIterate next s.iterState (N + 1) := by
  refine ⟨?_, trueOutputs_runFfi next (N + 1) s⟩
  rw [boolLog_runFfi_of_length next N s h]
  simp

/-- Witness for C2 over the three-element sequence 0, 1, 2. -/
theorem roundtrip_reproduces_sequence_witness :
    SeqLength (rangeNext 3) sampleState.iterState 3 ∧
    ((boolLog (runFfi (rangeNext 3) sampleState (3 + 1)).2).getLast?
       = some false ∧
     trueOutputs (runFfi (rangeNext 3) sampleState (3 + 1)).2
       = directIterate (rangeNext 3) sampleState.iterState (3 + 1)) :=
  ⟨⟨3, by decide, by decide⟩,
   roundtrip_reproduces_sequence (rangeNext 3) sampleState 3
     ⟨3, by decide, by decide⟩⟩

/-- C3: for a finite Sequence of length `N`, exactly the first `N`
trampoline calls return `true`, delivering the `N` elements in their
original order, and the `(N+1)`-th call returns `false`. -/
theorem finite_sequence_exact_calls {σ T : Type}
    (next : σ → Option (T × σ)) (s : FfiState σ T) (N : Nat)
    (h : SeqLength next s.iterState N) :
    boolLog (runFfi next s (N + 1)).2 = List.replicate N true ++ [false] ∧
    trueOutputs (runFfi next s (N + 1)).2
      = directIterate next s.iterState N := by
  refine ⟨boolLog_runFfi_of_length next N s h, ?_⟩
  rw [trueOutputs_runFfi next (N + 1) s,
      directIterate_succ_of_length next N s.iterState h]

/-- Witness for C3 over the three-element sequence 0, 1, 2: the calls
observe (true, 0), (true, 1), (true, 2), then false. -/
theorem finite_sequence_exact_calls_witness :
    SeqLength (rangeNext 3) sampleState.iterState 3 ∧
    (boolLog (runFfi (rangeNext 3) sampleState (3 + 1)).2
       = List.replicate 3 true ++ [false] ∧
     trueOutputs (runFfi (rangeNext 3) sampleState (3 + 1)).2
       = directIterate (rangeNext 3) sampleState.iterState 3) :=
  ⟨⟨3, by decide, by decide⟩,
   finite_sequence_exact_calls (rangeNext 3) sampleState 3
     ⟨3, by decide, by decide⟩⟩

/-- C4: across any contract-respecting sequence of trampoline calls on
one handle, the wrapped Sequence is deallocated exactly once, and on the
call that returns `false`: runs that stop at or before the `N`-th call
(before exhaustion) deallocate nothing and leave the box live, while any
run reaching the `false` call performs exactly one deallocation. -/
theorem dealloc_exactly_once {σ T : Type}
    (next : σ → Option (T × σ)) (s : FfiState σ T) (N : Nat)
    (h : SeqLength next s.iterState N) (hlive : s.live = true) :
    (∀ k, k ≤ N → (runFfi next s k).1.deallocs = s.deallocs ∧
      (runFfi next s k).1.live = true) ∧
    (∀ n, N < n → (runFfi next s n).1.deallocs = s.deallocs + 1 ∧
      (runFfi next s n).1.live = false) := by
  obtain ⟨t, hadv, hnone⟩ := h
  refine ⟨fun k hk => ?_,
    fun n hn => runFfi_dealloc_once next N s ⟨t, hadv, hnone⟩ n hn⟩
  have hks : (advance next s.iterState k).isSome :=
    advance_isSome_mono next k N s.iterState hk (by rw [hadv]; rfl)
  obtain ⟨hd, hl⟩ := runFfi_no_dealloc next k s hks
  exact ⟨hd, by rw [hl, hlive]⟩

/-- Witness for C4 over the three-element sequence 0, 1, 2. -/
theorem dealloc_exactly_once_witness :
    (SeqLength (rangeNext 3) sampleState.iterState 3 ∧
      sampleState.live = true) ∧
    ((∀ k, k ≤ 3 →
        (runFfi (rangeNext 3) sampleState k).1.deallocs
          = sampleState.deallocs ∧
        (runFfi (rangeNext 3) sampleState k).1.live = true) ∧
     (∀ n, 3 < n →
        (runFfi (rangeNext 3) sampleState n).1.deallocs
          = sampleState.deallocs + 1 ∧
        (runFfi (rangeNext 3) sampleState n).1.live = false)) :=
  ⟨⟨⟨3, by decide, by decide⟩, rfl⟩,
   dealloc_exactly_once (rangeNext 3) sampleState 3
     ⟨3, by decide, by decide⟩ rfl⟩

/-- C5: for an infinite (never-exhausted) Sequence, each of the first `n`
trampoline calls returns `true`, for every `n`; a `false` return is never
observed. -/
theorem infinite_sequence_never_false {σ T : Type}
    (next : σ → Option (T × σ)) (s : FfiState σ T)
    (h : SeqInfinite next s.iterState) (n : Nat) :
    boolLog (runFfi next s n).2 = List.replicate n true ∧
    false ∉ boolLog (runFfi next s n).2 := by
  have hb := boolLog_runFfi_infinite next n s h
  refine ⟨hb, ?_⟩
  rw [hb]
  simp

/-- A concrete trampoline-call state over the endless counter, for the
infinite-sequence witness. -/
def counterState : FfiState Nat Nat :=
  { record := sampleRecord, iterState := 0, slot := 0, live := true,
    deallocs := 0 }

/-- Witness for C5: five calls over the endless counter all return
`true`. -/
theorem infinite_sequence_never_false_witness :
    SeqInfinite natNext counterState.iterState ∧
    (boolLog (runFfi natNext counterState 5).2 = List.replicate 5 true ∧
     false ∉ boolLog (runFfi natNext counterState 5).2) :=
  ⟨natNext_infinite 0,
   infinite_sequence_never_false natNext counterState (natNext_infinite 0) 5⟩

/-- A concrete trampoline-call state for the example iterator of
`get_iterator`. -/
def exampleState : FfiState Nat (List Nat) :=
  { record := (get_iterator [] sampleRecord).2, iterState := 0, slot := [],
    live := true, deallocs := 0 }

/-- C7: for the example generator `get_iterator`, the `i`-th produced
element (0-indexed, for every `i` from 0 to 39) is the sequence of
exactly `i` ascending integers `0..i-1` (the list `List.range i`), and
the 40th call (after the 40 yielding ones) returns `false`. -/
theorem get_iterator_yields_ranges :
    trueOutputs (runFfi get_iterator_next exampleState (40 + 1)).2
      = (List.range 40).map (fun i => List.range i) ∧
    boolLog (runFfi get_iterator_next exampleState (40 + 1)).2
      = List.replicate 40 true ++ [false] := by
  have hlen : SeqLength get_iterator_next exampleState.iterState 40 :=
    ⟨40, by decide, by decide⟩
  constructor
  · rw [trueOutputs_runFfi get_iterator_next (40 + 1) exampleState,
        directIterate_succ_of_length get_iterator_next 40
          exampleState.iterState hlen]
    decide
  · exact boolLog_runFfi_of_length get_iterator_next 40 exampleState hlen
